import Mathlib

/-!
Verification of the mini-search-engine repository (preprocessor, indexer,
ranker, search engine) against its natural-language specification.

Modelling conventions:
* Python `dict`s (which preserve insertion order and have unique keys) are
  modelled as association lists, with `dget` (lookup of the unique matching
  key) and `dset` (update in place when present, append otherwise).
* Python `str` is modelled as Lean `String`; character-level processing
  (tokenizer, stemmer, snippets) works on `List Char`.
* Python `float` arithmetic (`math.log`, `/`) is modelled over `ℝ`.
* `sorted(..., key=score, reverse=True)` is a stable descending sort by
  score; it is modelled by insertion sort with the non-strict relation
  `b.2 ≤ a.2`, which is the (unique) stable descending sort on lists.
-/

namespace MiniSearch

/-- Python dict lookup: value at key `k`, i.e. the first (unique) entry. -/
def dget {κ α : Type} [DecidableEq κ] (k : κ) : List (κ × α) → Option α
  | [] => none
  | (k', v) :: m => if k' = k then some v else dget k m

/-- Python dict assignment `m[k] = v`: replace in place if the key exists,
otherwise append the new entry at the end (insertion order). -/
def dset {κ α : Type} [DecidableEq κ] (k : κ) (v : α) : List (κ × α) → List (κ × α)
  | [] => [(k, v)]
  | (k', v') :: m => if k' = k then (k, v) :: m else (k', v') :: dset k v m

theorem dget_dset_self {κ α : Type} [DecidableEq κ] (k : κ) (v : α) (m : List (κ × α)) :
    dget k (dset k v m) = some v := by
  induction m with
  | nil => simp [dget, dset]
  | cons e m ih =>
    obtain ⟨k', v'⟩ := e
    by_cases h : k' = k <;> simp [dget, dset, h, ih]

theorem dget_dset_ne {κ α : Type} [DecidableEq κ] {k k' : κ} (v : α) (m : List (κ × α))
    (h : k' ≠ k) : dget k (dset k' v m) = dget k m := by
  induction m with
  | nil => simp [dget, dset, h]
  | cons e m ih =>
    obtain ⟨k'', v''⟩ := e
    by_cases h2 : k'' = k'
    · subst h2
      simp [dget, dset, h]
    · by_cases h3 : k'' = k
      · subst h3
        simp [dget, dset, h2]
      · simp [dget, dset, h2, h3, ih]

theorem dset_of_dget_none {κ α : Type} [DecidableEq κ] {k : κ} (v : α) {m : List (κ × α)}
    (h : dget k m = none) : dset k v m = m ++ [(k, v)] := by
  induction m with
  | nil => simp [dset]
  | cons e m ih =>
    obtain ⟨k', v'⟩ := e
    simp only [dget] at h
    by_cases h2 : k' = k
    · simp [h2] at h
    · simp only [h2, if_false] at h
      simp [dset, h2, ih h]

theorem dset_of_dget_some {κ α : Type} [DecidableEq κ] {k : κ} {v : α} {m : List (κ × α)}
    (h : dget k m = some v) : dset k v m = m := by
  induction m with
  | nil => simp [dget] at h
  | cons e m ih =>
    obtain ⟨k', v'⟩ := e
    simp only [dget] at h
    by_cases h2 : k' = k
    · simp only [h2, if_true, Option.some.injEq] at h
      subst h2
      simp [dset, h]
    · simp only [h2, if_false] at h
      simp [dset, h2, ih h]

theorem dset_dset_self {κ α : Type} [DecidableEq κ] (k : κ) (v w : α) (m : List (κ × α)) :
    dset k v (dset k w m) = dset k v m := by
  induction m with
  | nil => simp [dset]
  | cons e m ih =>
    obtain ⟨k', v'⟩ := e
    by_cases h : k' = k <;> simp [dset, h, ih]

theorem keys_dset {κ α : Type} [DecidableEq κ] (k : κ) (v : α) (m : List (κ × α)) :
    (dset k v m).map Prod.fst = if k ∈ m.map Prod.fst then m.map Prod.fst
      else m.map Prod.fst ++ [k] := by
  induction m with
  | nil => simp [dset]
  | cons e m ih =>
    obtain ⟨k', v'⟩ := e
    by_cases h : k' = k
    · subst h
      simp [dset]
    · simp only [dset, h, if_false, List.map_cons]
      rw [ih]
      have h4 : ¬k = k' := fun h3 => h h3.symm
      by_cases h2 : k ∈ m.map Prod.fst <;> simp [h2, h4]

theorem dget_eq_none_iff {κ α : Type} [DecidableEq κ] (k : κ) (m : List (κ × α)) :
    dget k m = none ↔ k ∉ m.map Prod.fst := by
  induction m with
  | nil => simp [dget]
  | cons e m ih =>
    obtain ⟨k', v'⟩ := e
    by_cases h : k' = k
    · subst h
      simp [dget]
    · have h4 : ¬k = k' := fun h3 => h h3.symm
      simp [dget, h, h4, ih]

theorem dget_of_mem_nodup {κ α : Type} [DecidableEq κ] {k : κ} {v : α} {m : List (κ × α)}
    (hnd : (m.map Prod.fst).Nodup) (h : (k, v) ∈ m) : dget k m = some v := by
  induction m with
  | nil => simp at h
  | cons e m ih =>
    obtain ⟨k', v'⟩ := e
    simp only [List.map_cons, List.nodup_cons] at hnd
    rcases List.mem_cons.mp h with h1 | h1
    · obtain ⟨h2, h3⟩ := Prod.mk.inj h1
      subst h2
      subst h3
      simp [dget]
    · have hk : k' ≠ k := by
        rintro rfl
        exact hnd.1 (List.mem_map.mpr ⟨(k', v), h1, rfl⟩)
      simp [dget, hk, ih hnd.2 h1]

theorem nodup_keys_dset {κ α : Type} [DecidableEq κ] (k : κ) (v : α) (m : List (κ × α))
    (hnd : (m.map Prod.fst).Nodup) : ((dset k v m).map Prod.fst).Nodup := by
  rw [keys_dset]
  by_cases h : k ∈ m.map Prod.fst
  · simp [h, hnd]
  · simp only [h, if_false]
    refine List.Nodup.append hnd (List.nodup_singleton k) ?_
    intro a ha hb
    simp only [List.mem_singleton] at hb
    subst hb
    exact h ha

/-! ### preprocessor.py -/

/-- The `STOP_WORDS` set from `preprocessor.py`. -/
def STOP_WORDS : List String :=
  ["a", "an", "the", "and", "or", "but", "if", "in", "on", "at", "to",
   "for", "of", "with", "by", "from", "is", "it", "its", "be", "was",
   "are", "were", "been", "has", "have", "had", "do", "does", "did",
   "will", "would", "could", "should", "may", "might", "shall", "can",
   "not", "no", "nor", "so", "yet", "both", "either", "neither", "as",
   "up", "out", "about", "into", "than", "then", "that", "this", "these",
   "those", "which", "who", "whom", "what", "when", "where", "why", "how",
   "all", "each", "every", "any", "some", "such", "more", "most", "also",
   "over", "under", "again", "further", "once", "here", "there", "just",
   "too", "very", "own", "same", "other", "only", "even", "after",
   "before", "during", "while", "because", "although", "though", "since",
   "until", "unless", "between", "through", "i", "me", "my", "we", "our",
   "you", "your", "he", "him", "his", "she", "her", "they", "them",
   "their", "us", "s", "t"]

/-- ASCII whitespace as matched by `\s` / `str.split` (the non-ASCII
whitespace code points are turned into spaces by the `re.sub` step, so this
set yields the same word boundaries). -/
def isPySpace (c : Char) : Bool :=
  c = ' ' || c = '\t' || c = '\n' || c = '\r' || c = '\x0b' || c = '\x0c'

/-- `str.lower()` on the characters that can reach an indexable token
(ASCII letters); all other characters are erased by the `re.sub` step. -/
def pyLower (c : Char) : Char :=
  if 'A' ≤ c ∧ c ≤ 'Z' then Char.ofNat (c.toNat + 32) else c

/-- A character kept by the regex `[^a-z0-9\s]`. -/
def isLowerAlnum (c : Char) : Bool :=
  ('a' ≤ c && c ≤ 'z') || ('0' ≤ c && c ≤ '9')

/-- `re.sub(r"[^a-z0-9\s]", " ", text)`: every character that is not a
lowercase letter, digit or whitespace becomes a space. -/
def subNonAlnum (s : List Char) : List Char :=
  s.map (fun c => if isLowerAlnum c || isPySpace c then c else ' ')

/-- One step of `str.split()`, consuming one character from the right:
the state is the word in progress and the words already complete. -/
def splitStep (c : Char) (acc : List Char × List (List Char)) :
    List Char × List (List Char) :=
  if isPySpace c then ([], if acc.1 = [] then acc.2 else acc.1 :: acc.2)
  else (c :: acc.1, acc.2)

/-- `str.split()`: split on whitespace runs, dropping empty words. -/
def splitWords (s : List Char) : List (List Char) :=
  let r := s.foldr splitStep ([], [])
  if r.1 = [] then r.2 else r.1 :: r.2

/-- The ordered suffix-rule table of `_stem` in `preprocessor.py`. -/
def suffixRules : List (List Char × List Char) :=
  [("ational".data, "ate".data),
   ("tional".data,  "tion".data),
   ("enci".data,    "ence".data),
   ("anci".data,    "ance".data),
   ("izer".data,    "ize".data),
   ("ising".data,   "ise".data),
   ("izing".data,   "ize".data),
   ("nesses".data,  "ness".data),
   ("ness".data,    "".data),
   ("ments".data,   "ment".data),
   ("ment".data,    "".data),
   ("ings".data,    "ing".data),
   ("ing".data,     "".data),
   ("edly".data,    "".data),
   ("ingly".data,   "".data),
   ("ies".data,     "y".data),
   ("ied".data,     "y".data),
   ("sses".data,    "ss".data),
   ("tions".data,   "te".data),
   ("tion".data,    "te".data),
   ("ers".data,     "er".data),
   ("ly".data,      "".data),
   ("ed".data,      "".data),
   ("er".data,      "".data),
   ("es".data,      "".data),
   ("s".data,       "".data)]

/-- `word.endswith(suffix)`. -/
def endsWithL (w suf : List Char) : Bool :=
  decide (suf.length ≤ w.length) && w.drop (w.length - suf.length) == suf

/-- `word[: len(word) - len(suffix)] + replacement`. -/
def stemApply (w : List Char) (rule : List Char × List Char) : List Char :=
  w.take (w.length - rule.1.length) ++ rule.2

/-- The rule-scanning loop of `_stem`: try each rule in order; apply the
first one that matches and whose result keeps length at least 3. -/
def stemScan (w : List Char) : List (List Char × List Char) → List Char
  | [] => w
  | rule :: rest =>
    if endsWithL w rule.1 then
      if 3 ≤ (stemApply w rule).length then stemApply w rule else stemScan w rest
    else stemScan w rest

/-- `_stem` from `preprocessor.py`: words of length at most 3 are returned
unchanged, otherwise the suffix rules are scanned in order. -/
def stem (w : List Char) : List Char :=
  if w.length ≤ 3 then w else stemScan w suffixRules

/-- The stemmer as the specification words it: return the result of the
first rule in the fixed order that matches and whose result retains length
at least 3; if there is no such rule, return the word unchanged; words of
length at most 3 are never stemmed. -/
def stemDescribed (w : List Char) : List Char :=
  if w.length ≤ 3 then w
  else
    match suffixRules.find? (fun r => endsWithL w r.1 && decide (3 ≤ (stemApply w r).length)) with
    | some r => stemApply w r
    | none => w

/-- `tokenize` from `preprocessor.py`: lowercase, erase non-alphanumerics,
split, drop short and stop words, stem. -/
def tokenize (text : String) : List String :=
  if text.data = [] then []
  else
    let words := splitWords (subNonAlnum (text.data.map pyLower))
    (words.filter (fun w =>
        decide (2 ≤ w.length) && !STOP_WORDS.contains (String.mk w))).map
      (fun w => String.mk (stem w))

/-! ### indexer.py -/

/-- `SNIPPET_LENGTH` from `config.py`. -/
def SNIPPET_LENGTH : Nat := 200

/-- Metadata stored per document: title, url, snippet and token count. -/
structure DocMeta where
  title : String
  url : String
  snippet : String
  length : Nat
deriving DecidableEq, Repr

/-- The `Indexer` state: inverted index, document frequencies, metadata. -/
structure IndexerState where
  index : List (String × List (String × List Nat))
  docFreq : List (String × Nat)
  documents : List (String × DocMeta)
deriving DecidableEq, Repr

/-- A freshly constructed `Indexer()`. -/
def emptyIndexer : IndexerState := ⟨[], [], []⟩

/-- `" ".join(words)`. -/
def joinSpace : List (List Char) → List Char
  | [] => []
  | [w] => w
  | w :: ws => w ++ ' ' :: joinSpace ws

/-- Index of the last character satisfying `p` (for `str.rfind` on a slice). -/
def rlast (p : Char → Bool) : List Char → Option Nat
  | [] => none
  | c :: s =>
    match rlast p s with
    | some i => some (i + 1)
    | none => if p c then some 0 else none

/-- `Indexer._make_snippet`: normalise whitespace, truncate to
`SNIPPET_LENGTH` characters at a word boundary, append an ellipsis. -/
def makeSnippet (text : String) : String :=
  let t := joinSpace (splitWords text.data)
  if t.length ≤ SNIPPET_LENGTH then String.mk t
  else
    let cut :=
      match rlast (fun c => c = ' ') (t.take SNIPPET_LENGTH) with
      | some i => i
      | none => SNIPPET_LENGTH
    String.mk (t.take cut ++ ['…'])

/-- `enumerate` starting at `k`. -/
def pyEnum {α : Type} (k : Nat) : List α → List (Nat × α)
  | [] => []
  | a :: l => (k, a) :: pyEnum (k + 1) l

/-- The token loop of `Indexer.add_document`: for each `(position, token)`
append the position to `index[token][doc_id]` and bump `doc_freq[token]`
once per document per term (`seen_in_doc`). -/
def addLoop (d : String) :
    List (Nat × String) → List (String × List (String × List Nat)) →
    List (String × Nat) → List String →
    List (String × List (String × List Nat)) × List (String × Nat)
  | [], idx, df, _ => (idx, df)
  | (pos, tok) :: rest, idx, df, seen =>
    let posts := (dget tok idx).getD []
    let ps := (dget d posts).getD []
    let idx' := dset tok (dset d (ps ++ [pos]) posts) idx
    if seen.contains tok then addLoop d rest idx' df seen
    else addLoop d rest idx' (dset tok ((dget tok df).getD 0 + 1) df) (tok :: seen)

/-- `Indexer.add_document`: tokenize, store metadata (with the token count
as `length`), then run the token loop. -/
def addDocument (s : IndexerState) (docId title url text : String) : IndexerState :=
  let tokens := tokenize text
  let docs' := dset docId ⟨title, url, makeSnippet text, tokens.length⟩ s.documents
  let r := addLoop docId (pyEnum 0 tokens) s.index s.docFreq []
  ⟨r.1, r.2, docs'⟩

/-- A crawled page dictionary, with the keys `build_from_crawled_data`
reads via `page.get`. -/
structure Page where
  title : Option String
  url : Option String
  text : Option String
deriving Repr

/-- The loop of `Indexer.build_from_crawled_data` with its running
`enumerate` counter. -/
def buildAux (s : IndexerState) (i : Nat) : List Page → IndexerState
  | [] => s
  | p :: ps =>
    buildAux (addDocument s ("doc_" ++ toString i) (p.title.getD "Untitled")
      (p.url.getD "") (p.text.getD "")) (i + 1) ps

/-- `Indexer.build_from_crawled_data`: add every page with sequential ids
`doc_0`, `doc_1`, ... . -/
def buildFromCrawledData (s : IndexerState) (pages : List Page) : IndexerState :=
  buildAux s 0 pages

/-! ### ranker.py -/

/-- `idf = log((total_docs + 1) / (df + 1)) + 1`. -/
noncomputable def idfOf (totalDocs df : Nat) : ℝ :=
  Real.log (((totalDocs : ℝ) + 1) / ((df : ℝ) + 1)) + 1

/-- The inner loop of `compute_tfidf_scores` over `index[term].items()`:
skip documents without metadata, divide term frequency by the stored
length (or 1 when it is 0), accumulate `tf * idf` into `scores`. -/
noncomputable def accumPostings (documents : List (String × DocMeta)) (idf : ℝ)
    (scores : List (String × ℝ)) : List (String × List Nat) → List (String × ℝ)
  | [] => scores
  | (docId, positions) :: rest =>
    match dget docId documents with
    | none => accumPostings documents idf scores rest
    | some meta =>
      let docLength : Nat := if meta.length = 0 then 1 else meta.length
      let tf : ℝ := (positions.length : ℝ) / (docLength : ℝ)
      accumPostings documents idf
        (dset docId ((dget docId scores).getD 0 + tf * idf) scores) rest

/-- The outer loop of `compute_tfidf_scores` over the query tokens: skip
terms absent from the index, compute the smoothed idf, run the inner loop. -/
noncomputable def accumTerms (index : List (String × List (String × List Nat)))
    (docFreq : List (String × Nat)) (documents : List (String × DocMeta))
    (totalDocs : Nat) (scores : List (String × ℝ)) : List String → List (String × ℝ)
  | [] => scores
  | term :: rest =>
    match dget term index with
    | none => accumTerms index docFreq documents totalDocs scores rest
    | some posts =>
      accumTerms index docFreq documents totalDocs
        (accumPostings documents (idfOf totalDocs ((dget term docFreq).getD 0)) scores posts)
        rest

/-- The `scores` dict built by `compute_tfidf_scores` before sorting. -/
noncomputable def tfidfAccum (queryTokens : List String)
    (index : List (String × List (String × List Nat)))
    (docFreq : List (String × Nat)) (documents : List (String × DocMeta)) :
    List (String × ℝ) :=
  accumTerms index docFreq documents documents.length [] queryTokens

/-- Python list slicing `l[:k]`, including the negative-`k` semantics. -/
def pySlice {α : Type} (l : List α) (k : Int) : List α :=
  if 0 ≤ k then l.take k.toNat else l.take (l.length - (-k).toNat)

/-- Descending comparison on `(doc_id, score)` pairs used by
`sorted(scores.items(), key=lambda x: x[1], reverse=True)`. -/
def scoreGE (a b : String × ℝ) : Prop := b.2 ≤ a.2

noncomputable instance : DecidableRel scoreGE := fun a b => Real.decidableLE b.2 a.2

/-- `compute_tfidf_scores`: accumulate, sort by score descending (stable),
truncate with `ranked[:top_k]`. -/
noncomputable def computeTfidfScores (queryTokens : List String)
    (index : List (String × List (String × List Nat)))
    (docFreq : List (String × Nat)) (documents : List (String × DocMeta))
    (topK : Int) : List (String × ℝ) :=
  pySlice (List.insertionSort scoreGE (tfidfAccum queryTokens index docFreq documents)) topK

/-! ### search_engine.py -/

/-- `round(score, 4)`. -/
noncomputable def round4 (x : ℝ) : ℝ := (round (x * 10000) : ℤ) / 10000

/-- One result dict produced by `SearchEngine.search`. -/
structure SearchResult where
  docId : String
  title : String
  url : String
  snippet : String
  score : ℝ

/-- `SearchEngine.search`: empty results for blank queries or queries that
normalise to no tokens; otherwise rank with TF-IDF and enrich each ranked
pair with the stored metadata. -/
noncomputable def search (s : IndexerState) (query : String) (topK : Int) :
    List SearchResult :=
  if query.data.all isPySpace then []
  else
    let queryTokens := tokenize query
    if queryTokens = [] then []
    else
      (computeTfidfScores queryTokens s.index s.docFreq s.documents topK).map
        (fun r =>
          match dget r.1 s.documents with
          | none => ⟨r.1, "Untitled", "#", "", round4 r.2⟩
          | some m => ⟨r.1, m.title, m.url, m.snippet, round4 r.2⟩)

/-! ### Lemmas about the preprocessor -/

theorem stemScan_eq_find (w : List Char) (rs : List (List Char × List Char)) :
    stemScan w rs =
      match rs.find? (fun r => endsWithL w r.1 && decide (3 ≤ (stemApply w r).length)) with
      | some r => stemApply w r
      | none => w := by
  induction rs with
  | nil => simp [stemScan, List.find?]
  | cons rule rest ih =>
    by_cases h1 : endsWithL w rule.1 = true
    · by_cases h2 : 3 ≤ (stemApply w rule).length
      · simp [stemScan, List.find?, h1, h2]
      · simp [stemScan, List.find?, h1, h2, ih]
    · simp only [Bool.not_eq_true] at h1
      simp [stemScan, List.find?, h1, ih]

theorem stemScan_cases (w : List Char) (rs : List (List Char × List Char)) :
    stemScan w rs = w ∨
      ∃ r ∈ rs, stemScan w rs = stemApply w r ∧ 3 ≤ (stemApply w r).length := by
  induction rs with
  | nil => left; rfl
  | cons rule rest ih =>
    by_cases h1 : endsWithL w rule.1 = true
    · by_cases h2 : 3 ≤ (stemApply w rule).length
      · right
        exact ⟨rule, List.mem_cons_self .., by simp [stemScan, h1, h2], h2⟩
      · rcases ih with h | ⟨r, hr, he, hl⟩
        · left
          simp [stemScan, h1, h2, h]
        · right
          exact ⟨r, List.mem_cons_of_mem _ hr, by simp [stemScan, h1, h2, he], hl⟩
    · simp only [Bool.not_eq_true] at h1
      rcases ih with h | ⟨r, hr, he, hl⟩
      · left
        simp [stemScan, h1, h]
      · right
        exact ⟨r, List.mem_cons_of_mem _ hr, by simp [stemScan, h1, he], hl⟩

theorem length_stem (w : List Char) (h : 2 ≤ w.length) : 2 ≤ (stem w).length := by
  unfold stem
  by_cases h3 : w.length ≤ 3
  · simp [h3, h]
  · simp only [h3, if_false]
    rcases stemScan_cases w suffixRules with he | ⟨r, _, he, hl⟩
    · rw [he]; exact h
    · rw [he]; omega

theorem mem_stem (w : List Char) (c : Char) (hc : c ∈ stem w) :
    c ∈ w ∨ ∃ r ∈ suffixRules, c ∈ r.2 := by
  unfold stem at hc
  by_cases h3 : w.length ≤ 3
  · simp only [h3, if_true] at hc
    exact Or.inl hc
  · simp only [h3, if_false] at hc
    rcases stemScan_cases w suffixRules with he | ⟨r, hr, he, _⟩
    · rw [he] at hc
      exact Or.inl hc
    · rw [he] at hc
      unfold stemApply at hc
      rcases List.mem_append.mp hc with h | h

      · exact Or.inl (List.mem_of_mem_take h)
      · exact Or.inr ⟨r, hr, h⟩

theorem mem_subNonAlnum (s : List Char) (c : Char) (hc : c ∈ subNonAlnum s) :
    isLowerAlnum c = true ∨ isPySpace c = true := by
  unfold subNonAlnum at hc
  rcases List.mem_map.mp hc with ⟨d, _, he⟩
  subst he
  by_cases h : (isLowerAlnum d || isPySpace d) = true
  · rw [if_pos h]
    simpa using h
  · rw [if_neg h]
    right
    decide

theorem splitStep_foldr_chars (s : List Char) :
    (∀ c ∈ (s.foldr splitStep ([], [])).1, c ∈ s ∧ isPySpace c = false) ∧
    (∀ w ∈ (s.foldr splitStep ([], [])).2,
      w ≠ [] ∧ ∀ c ∈ w, c ∈ s ∧ isPySpace c = false) := by
  induction s with
  | nil => simp
  | cons c s ih =>
    obtain ⟨ih1, ih2⟩ := ih
    rw [List.foldr_cons]
    by_cases hsp : isPySpace c = true
    · rw [splitStep, if_pos hsp]
      refine ⟨by simp, ?_⟩
      intro w hw
      by_cases hcur : (s.foldr splitStep ([], [])).1 = []
      · simp only [hcur, if_true] at hw
        obtain ⟨h1, h2⟩ := ih2 w hw
        exact ⟨h1, fun d hd => ⟨List.mem_cons_of_mem _ (h2 d hd).1, (h2 d hd).2⟩⟩
      · simp only [hcur, if_false] at hw
        rcases List.mem_cons.mp hw with hw | hw
        · subst hw
          exact ⟨hcur, fun d hd =>
            ⟨List.mem_cons_of_mem _ (ih1 d hd).1, (ih1 d hd).2⟩⟩
        · obtain ⟨h1, h2⟩ := ih2 w hw
          exact ⟨h1, fun d hd => ⟨List.mem_cons_of_mem _ (h2 d hd).1, (h2 d hd).2⟩⟩
    · rw [splitStep, if_neg hsp]
      constructor
      · intro d hd
        rcases List.mem_cons.mp hd with hd | hd
        · subst hd
          exact ⟨List.mem_cons_self .., by simpa using hsp⟩
        · exact ⟨List.mem_cons_of_mem _ (ih1 d hd).1, (ih1 d hd).2⟩
      · intro w hw
        obtain ⟨h1, h2⟩ := ih2 w hw
        exact ⟨h1, fun d hd => ⟨List.mem_cons_of_mem _ (h2 d hd).1, (h2 d hd).2⟩⟩

theorem mem_splitWords (s : List Char) (w : List Char) (hw : w ∈ splitWords s) :
    w ≠ [] ∧ ∀ c ∈ w, c ∈ s ∧ isPySpace c = false := by
  obtain ⟨h1, h2⟩ := splitStep_foldr_chars s
  unfold splitWords at hw
  by_cases hcur : (s.foldr splitStep ([], [])).1 = []
  · simp only [hcur, if_true] at hw
    exact h2 w hw
  · simp only [hcur, if_false] at hw
    rcases List.mem_cons.mp hw with hw | hw
    · subst hw
      exact ⟨hcur, h1⟩
    · exact h2 w hw

theorem suffixRules_lower :
    ∀ r ∈ suffixRules, ∀ c ∈ r.2, isLowerAlnum c = true := by decide

/-- **C9**: the stemmer returns words of length ≤ 3 unchanged; for longer
words it scans the suffix rules in their fixed order and returns the result
of the first matching rule whose replacement yields a stem of length ≥ 3;
if no rule matches, or no matching rule's result meets the length floor, it
returns the word unchanged. -/
theorem stem_eq_stemDescribed : ∀ w : List Char, stem w = stemDescribed w := by
  intro w
  unfold stem stemDescribed
  by_cases h3 : w.length ≤ 3
  · simp [h3]
  · simp only [h3, if_false]
    exact stemScan_eq_find w suffixRules

/-- **C10**: every token produced by `tokenize` is a string of length at
least 2 whose characters are ASCII lowercase letters or digits; yet a token
may equal a stop word, since stemming can map a non-stop word onto one
(e.g. "cans" is stemmed to the stop word "can"). -/
theorem tokenize_token_invariant :
    (∀ (s t : String), t ∈ tokenize s →
      2 ≤ t.length ∧ t.data.all isLowerAlnum = true) ∧
    tokenize "cans" = ["can"] ∧ "can" ∈ STOP_WORDS := by
  refine ⟨?_, by decide, by decide⟩
  intro s t ht
  unfold tokenize at ht
  by_cases hs : s.data = []
  · simp [hs] at ht
  · simp only [hs, if_false] at ht
    rcases List.mem_map.mp ht with ⟨w, hwf, he⟩
    rcases List.mem_filter.mp hwf with ⟨hw, hcond⟩
    have h2 : 2 ≤ w.length := by
      have := (Bool.and_eq_true ..).mp hcond |>.1
      exact of_decide_eq_true this
    subst he
    constructor
    · exact length_stem w h2
    · rw [List.all_eq_true]
      intro c hc
      rcases mem_stem w c hc with hcw | ⟨r, hr, hcr⟩
      · obtain ⟨-, hall⟩ := mem_splitWords _ w hw
        obtain ⟨hmem, hnsp⟩ := hall c hcw
        rcases mem_subNonAlnum _ c hmem with h | h
        · exact h
        · rw [h] at hnsp
          cases hnsp
      · exact suffixRules_lower r hr c hcr

/-- Witness for **C10** at a concrete input. -/
theorem tokenize_token_invariant_witness :
    ("hello" ∈ tokenize "hello") ∧
      (2 ≤ ("hello" : String).length ∧ ("hello" : String).data.all isLowerAlnum = true) :=
  ⟨by decide, tokenize_token_invariant.1 "hello" "hello" (by decide)⟩

/-! ### Lemmas about the indexer -/

/-- The positions at which term `t` occurs in the enumerated token list. -/
def keepPos (L : List (Nat × String)) (t : String) : List Nat :=
  (L.filter (fun e => e.2 == t)).map Prod.fst

theorem keepPos_nil (t : String) : keepPos [] t = [] := rfl

theorem keepPos_cons (pos : Nat) (tok t : String) (L : List (Nat × String)) :
    keepPos ((pos, tok) :: L) t =
      if tok = t then pos :: keepPos L t else keepPos L t := by
  by_cases h : tok = t <;> simp [keepPos, List.filter_cons, h]

theorem keepPos_eq_nil_of_not_mem {L : List (Nat × String)} {t : String}
    (h : t ∉ L.map Prod.snd) : keepPos L t = [] := by
  induction L with
  | nil => rfl
  | cons e L ih =>
    obtain ⟨pos, tok⟩ := e
    simp only [List.map_cons, List.mem_cons] at h
    push_neg at h
    rw [keepPos_cons, if_neg (fun h2 => h.1 h2.symm), ih h.2]

theorem keepPos_ne_nil_of_mem {L : List (Nat × String)} {t : String}
    (h : t ∈ L.map Prod.snd) : keepPos L t ≠ [] := by
  induction L with
  | nil => simp at h
  | cons e L ih =>
    obtain ⟨pos, tok⟩ := e
    rw [keepPos_cons]
    by_cases h2 : tok = t
    · simp [h2]
    · simp only [List.map_cons, List.mem_cons] at h
      rcases h with h | h

      · exact absurd h.symm h2
      · simp only [h2, if_false]
        exact ih h

theorem pyEnum_map_snd {α : Type} (k : Nat) (l : List α) :
    (pyEnum k l).map Prod.snd = l := by
  induction l generalizing k with
  | nil => rfl
  | cons a l ih => simp [pyEnum, ih]

theorem keepPos_pyEnum_bounds (toks : List String) (t : String) :
    ∀ k, (∀ p ∈ keepPos (pyEnum k toks) t, k ≤ p ∧ p < k + toks.length) ∧
      (keepPos (pyEnum k toks) t).Pairwise (· < ·) := by
  induction toks with
  | nil => simp [pyEnum, keepPos_nil]
  | cons a toks ih =>
    intro k
    obtain ⟨ihb, ihp⟩ := ih (k + 1)
    rw [pyEnum, keepPos_cons]
    by_cases h : a = t
    · rw [if_pos h]
      refine ⟨?_, ?_⟩
      · intro p hp
        rcases List.mem_cons.mp hp with hp | hp
        · subst hp
          simp
        · have := ihb p hp
          constructor <;> [omega; (simp only [List.length_cons]; omega)]
      · rw [List.pairwise_cons]
        exact ⟨fun p hp => by have := (ihb p hp).1; omega, ihp⟩
    · rw [if_neg h]
      refine ⟨fun p hp => ?_, ihp⟩
      have := ihb p hp
      constructor <;> [omega; (simp only [List.length_cons]; omega)]

theorem addLoop_index_char (d : String) :
    ∀ (L : List (Nat × String)) idx df seen (t : String),
    dget t (addLoop d L idx df seen).1 =
      if t ∈ L.map Prod.snd then
        some (dset d ((dget d ((dget t idx).getD [])).getD [] ++ keepPos L t)
          ((dget t idx).getD []))
      else dget t idx := by
  intro L
  induction L with
  | nil =>
    intro idx df seen t
    simp [addLoop]
  | cons e L ih =>
    obtain ⟨pos, tok⟩ := e
    intro idx df seen t
    have hstep : (addLoop d ((pos, tok) :: L) idx df seen).1 =
        (addLoop d L (dset tok
          (dset d (((dget d ((dget tok idx).getD [])).getD []) ++ [pos])
            ((dget tok idx).getD [])) idx)
          (if seen.contains tok = true then df
            else dset tok ((dget tok df).getD 0 + 1) df)
          (if seen.contains tok = true then seen else tok :: seen)).1 := by
      simp only [addLoop]
      by_cases hs : seen.contains tok = true
      · rw [if_pos hs, if_pos hs, if_pos hs]
      · rw [if_neg hs, if_neg hs, if_neg hs]
    rw [hstep, ih]
    by_cases het : tok = t
    · subst het
      rw [dget_dset_self]
      simp only [Option.getD_some]
      rw [dget_dset_self]
      simp only [Option.getD_some]
      rw [dset_dset_self, keepPos_cons, if_pos rfl]
      have hmem : tok ∈ ((pos, tok) :: L).map Prod.snd := by simp
      rw [if_pos hmem]
      by_cases hmem2 : tok ∈ L.map Prod.snd
      · rw [if_pos hmem2]
        congr 2
        simp
      · rw [if_neg hmem2, keepPos_eq_nil_of_not_mem hmem2]
    · rw [dget_dset_ne _ _ het, keepPos_cons, if_neg het]
      have hmem : (t ∈ ((pos, tok) :: L).map Prod.snd) ↔ (t ∈ L.map Prod.snd) := by
        simp only [List.map_cons, List.mem_cons]
        exact ⟨fun h => h.resolve_left (fun h2 => het h2.symm), Or.inr⟩
      by_cases hmem2 : t ∈ L.map Prod.snd
      · rw [if_pos hmem2, if_pos (hmem.mpr hmem2)]
      · rw [if_neg hmem2, if_neg (fun h => hmem2 (hmem.mp h))]

theorem addLoop_docFreq_char (d : String) :
    ∀ (L : List (Nat × String)) idx df (seen : List String) (t : String),
    dget t (addLoop d L idx df seen).2 =
      if t ∈ L.map Prod.snd ∧ t ∉ seen then some ((dget t df).getD 0 + 1)
      else dget t df := by
  intro L
  induction L with
  | nil =>
    intro idx df seen t
    simp [addLoop]
  | cons e L ih =>
    obtain ⟨pos, tok⟩ := e
    intro idx df seen t
    simp only [addLoop]
    by_cases hs : seen.contains tok = true
    · rw [if_pos hs]
      rw [ih]
      have hseen : tok ∈ seen := by simpa using hs
      by_cases het : tok = t
      · subst het
        have h1 : ¬(tok ∈ ((pos, tok) :: L).map Prod.snd ∧ tok ∉ seen) := by
          intro h
          exact h.2 hseen
        have h2 : ¬(tok ∈ L.map Prod.snd ∧ tok ∉ seen) := by
          intro h
          exact h.2 hseen
        rw [if_neg h1, if_neg h2]
      · have hmem : (t ∈ ((pos, tok) :: L).map Prod.snd) ↔ (t ∈ L.map Prod.snd) := by
          simp only [List.map_cons, List.mem_cons]
          exact ⟨fun h => h.resolve_left (fun h2 => het h2.symm), Or.inr⟩
        by_cases hc : t ∈ L.map Prod.snd ∧ t ∉ seen
        · rw [if_pos hc, if_pos ⟨hmem.mpr hc.1, hc.2⟩]
        · rw [if_neg hc, if_neg (fun h => hc ⟨hmem.mp h.1, h.2⟩)]
    · rw [if_neg hs]
      rw [ih]
      have hseen : tok ∉ seen := fun h => hs (by simpa using h)
      by_cases het : tok = t
      · subst het
        have h2 : ¬(tok ∈ L.map Prod.snd ∧ tok ∉ (tok :: seen)) := by
          intro h
          exact h.2 (List.mem_cons_self ..)
        rw [if_neg h2, dget_dset_self]
        have h1 : tok ∈ ((pos, tok) :: L).map Prod.snd ∧ tok ∉ seen :=
          ⟨by simp, hseen⟩
        rw [if_pos h1]
      · have hmem : (t ∈ ((pos, tok) :: L).map Prod.snd) ↔ (t ∈ L.map Prod.snd) := by
          simp only [List.map_cons, List.mem_cons]
          exact ⟨fun h => h.resolve_left (fun h2 => het h2.symm), Or.inr⟩
        have hseen2 : (t ∉ (tok :: seen)) ↔ (t ∉ seen) := by
          simp only [List.mem_cons]
          constructor
          · intro h hc
            exact h (Or.inr hc)
          · intro h hc
            rcases hc with hc | hc
            · exact het hc.symm
            · exact h hc
        rw [dget_dset_ne _ _ het]
        by_cases hc : t ∈ L.map Prod.snd ∧ t ∉ seen
        · rw [if_pos ⟨hc.1, hseen2.mpr hc.2⟩, if_pos ⟨hmem.mpr hc.1, hc.2⟩]
        · rw [if_neg (fun h => hc ⟨h.1, hseen2.mp h.2⟩),
            if_neg (fun h => hc ⟨hmem.mp h.1, h.2⟩)]

theorem addDocument_index (s : IndexerState) (d title url text : String) :
    (addDocument s d title url text).index =
      (addLoop d (pyEnum 0 (tokenize text)) s.index s.docFreq []).1 := rfl

theorem addDocument_docFreq (s : IndexerState) (d title url text : String) :
    (addDocument s d title url text).docFreq =
      (addLoop d (pyEnum 0 (tokenize text)) s.index s.docFreq []).2 := rfl

theorem addDocument_documents (s : IndexerState) (d title url text : String) :
    (addDocument s d title url text).documents =
      dset d ⟨title, url, makeSnippet text, (tokenize text).length⟩ s.documents := rfl

/-- Boolean check that a list of naturals is strictly increasing. -/
def strictIncr : List Nat → Bool
  | [] => true
  | [_] => true
  | a :: b :: l => decide (a < b) && strictIncr (b :: l)

theorem strictIncr_of_pairwise : ∀ {l : List Nat}, l.Pairwise (· < ·) →
    strictIncr l = true := by
  intro l
  induction l with
  | nil => intro; rfl
  | cons a l ih =>
    intro h
    rw [List.pairwise_cons] at h
    cases l with
    | nil => rfl
    | cons b m =>
      rw [strictIncr]
      rw [Bool.and_eq_true]
      exact ⟨decide_eq_true (h.1 b (List.mem_cons_self ..)), ih h.2⟩

/-- Boolean well-formedness of a postings map against the document store:
every entry has a non-empty, strictly increasing position list whose
positions are valid indices into the stored token count. -/
def postingsOk (docs : List (String × DocMeta)) (posts : List (String × List Nat)) : Bool :=
  posts.all (fun e =>
    !e.2.isEmpty && strictIncr e.2 &&
      match dget e.1 docs with
      | none => false
      | some m => e.2.all (fun p => decide (p < m.length)))

/-- The invariant maintained by `add_document` over fresh doc ids: the index
has no empty postings map and no empty position list, position lists are
strictly increasing and in range of the stored document length, postings
keys are distinct, and `doc_freq` counts exactly the documents with
non-empty postings. -/
def Inv (s : IndexerState) : Prop :=
  (∀ t, dget t s.index = none → dget t s.docFreq = none) ∧
  (∀ t posts, dget t s.index = some posts →
    posts ≠ [] ∧ (posts.map Prod.fst).Nodup ∧
    dget t s.docFreq = some (posts.countP (fun e => !e.2.isEmpty)) ∧
    ∀ e ∈ posts, e.2 ≠ [] ∧ e.2.Pairwise (· < ·) ∧
      ∃ m, dget e.1 s.documents = some m ∧ ∀ p ∈ e.2, p < m.length)

theorem inv_addDocument (s : IndexerState) (d title url text : String)
    (hInv : Inv s) (hfresh : dget d s.documents = none) :
    Inv (addDocument s d title url text) := by
  obtain ⟨hNone, hSome⟩ := hInv
  have hdfree : ∀ t posts, dget t s.index = some posts → dget d posts = none := by
    intro t posts h
    rw [dget_eq_none_iff]
    intro hd
    rcases List.mem_map.mp hd with ⟨e, he, hee⟩
    obtain ⟨m, hm, -⟩ := ((hSome t posts h).2.2.2 e he).2.2
    rw [hee, hfresh] at hm
    cases hm
  have hidxc : ∀ t, dget t (addDocument s d title url text).index =
      if t ∈ tokenize text then
        some (dset d ((dget d ((dget t s.index).getD [])).getD []
            ++ keepPos (pyEnum 0 (tokenize text)) t)
          ((dget t s.index).getD []))
      else dget t s.index := by
    intro t
    rw [addDocument_index, addLoop_index_char, pyEnum_map_snd]
  have hdfc : ∀ t, dget t (addDocument s d title url text).docFreq =
      if t ∈ tokenize text then some ((dget t s.docFreq).getD 0 + 1)
      else dget t s.docFreq := by
    intro t
    rw [addDocument_docFreq, addLoop_docFreq_char, pyEnum_map_snd]
    by_cases ht : t ∈ tokenize text
    · rw [if_pos ⟨ht, by simp⟩, if_pos ht]
    · rw [if_neg (fun hc => ht hc.1), if_neg ht]
  have hdocpres : ∀ (d' : String), d' ≠ d →
      dget d' (addDocument s d title url text).documents = dget d' s.documents := by
    intro d' hne
    rw [addDocument_documents, dget_dset_ne _ _ (fun h => hne h.symm)]
  have hmetad : dget d (addDocument s d title url text).documents =
      some ⟨title, url, makeSnippet text, (tokenize text).length⟩ := by
    rw [addDocument_documents, dget_dset_self]
  have hkeep : ∀ t, t ∈ tokenize text → keepPos (pyEnum 0 (tokenize text)) t ≠ [] := by
    intro t ht
    apply keepPos_ne_nil_of_mem
    rw [pyEnum_map_snd]
    exact ht
  have hkeepOk : ∀ t, (keepPos (pyEnum 0 (tokenize text)) t).Pairwise (· < ·) ∧
      ∀ p ∈ keepPos (pyEnum 0 (tokenize text)) t, p < (tokenize text).length := by
    intro t
    obtain ⟨hb, hp⟩ := keepPos_pyEnum_bounds (tokenize text) t 0
    exact ⟨hp, fun p hpp => by have := hb p hpp; omega⟩
  have hEntryNew : ∀ t, (keepPos (pyEnum 0 (tokenize text)) t ≠ []) →
      (d, keepPos (pyEnum 0 (tokenize text)) t).2 ≠ [] ∧
      (d, keepPos (pyEnum 0 (tokenize text)) t).2.Pairwise (· < ·) ∧
      ∃ m, dget (d, keepPos (pyEnum 0 (tokenize text)) t).1
          (addDocument s d title url text).documents = some m ∧
        ∀ p ∈ (d, keepPos (pyEnum 0 (tokenize text)) t).2, p < m.length := by
    intro t hne
    exact ⟨hne, (hkeepOk t).1,
      ⟨title, url, makeSnippet text, (tokenize text).length⟩, hmetad, (hkeepOk t).2⟩
  have hEntryOld : ∀ t posts, dget t s.index = some posts → ∀ e ∈ posts,
      e.2 ≠ [] ∧ e.2.Pairwise (· < ·) ∧
      ∃ m, dget e.1 (addDocument s d title url text).documents = some m ∧
        ∀ p ∈ e.2, p < m.length := by
    intro t posts h e he
    obtain ⟨hne, hpw, m, hm, hb⟩ := (hSome t posts h).2.2.2 e he
    have hed : e.1 ≠ d := by
      intro hc
      rw [hc, hfresh] at hm
      cases hm
    exact ⟨hne, hpw, m, by rw [hdocpres e.1 hed]; exact hm, hb⟩
  constructor
  · intro t h
    rw [hidxc] at h
    by_cases ht : t ∈ tokenize text
    · rw [if_pos ht] at h
      cases h
    · rw [if_neg ht] at h
      rw [hdfc, if_neg ht]
      exact hNone t h
  · intro t posts' h
    rw [hidxc] at h
    by_cases ht : t ∈ tokenize text
    · rw [if_pos ht] at h
      cases hold : dget t s.index with
      | none =>
        rw [hold] at h
        simp only [Option.getD_none] at h
        have hd0 : dget d ([] : List (String × List Nat)) = none := rfl
        rw [hd0] at h
        simp only [Option.getD_none, List.nil_append] at h
        have hp : posts' = [(d, keepPos (pyEnum 0 (tokenize text)) t)] := by
          cases h
          rfl
        subst hp
        refine ⟨by simp, by simp, ?_, ?_⟩
        · rw [hdfc, if_pos ht, hNone t hold]
          simp only [Option.getD_none, Nat.zero_add]
          congr 1
          rw [List.countP_cons]
          simp [List.isEmpty_iff, hkeep t ht]
        · intro e he
          rw [List.mem_singleton] at he
          subst he
          exact hEntryNew t (hkeep t ht)
      | some posts =>
        rw [hold] at h
        simp only [Option.getD_some] at h
        rw [hdfree t posts hold] at h
        simp only [Option.getD_none, List.nil_append] at h
        obtain ⟨hne, hnd, hdf, -⟩ := hSome t posts hold
        have hp : posts' = posts ++ [(d, keepPos (pyEnum 0 (tokenize text)) t)] := by
          cases h
          exact dset_of_dget_none _ (hdfree t posts hold)
        refine ⟨?_, ?_, ?_, ?_⟩
        · rw [hp]
          simp
        · cases h
          exact nodup_keys_dset _ _ _ hnd
        · rw [hdfc, if_pos ht, hdf, hp]
          simp only [Option.getD_some]
          congr 1
          rw [List.countP_append, List.countP_cons]
          simp [List.isEmpty_iff, hkeep t ht]
        · rw [hp]
          intro e he
          rcases List.mem_append.mp he with he | he
          · exact hEntryOld t posts hold e he
          · rw [List.mem_singleton] at he
            subst he
            exact hEntryNew t (hkeep t ht)
    · rw [if_neg ht] at h
      obtain ⟨hne, hnd, hdf, -⟩ := hSome t posts' h
      refine ⟨hne, hnd, ?_, hEntryOld t posts' h⟩
      rw [hdfc, if_neg ht]
      exact hdf

/-- One `add_document` call with the argument tuple `(doc_id, title, url, text)`. -/
def opAdd (st : IndexerState) (op : String × String × String × String) : IndexerState :=
  addDocument st op.1 op.2.1 op.2.2.1 op.2.2.2

/-- The state after a sequence of `add_document` calls on a fresh `Indexer()`. -/
def buildOps (ops : List (String × String × String × String)) : IndexerState :=
  ops.foldl opAdd emptyIndexer

theorem inv_emptyIndexer : Inv emptyIndexer := by
  constructor
  · intro t _
    rfl
  · intro t posts h
    cases h

theorem inv_foldl : ∀ (ops : List (String × String × String × String)) s,
    Inv s → (∀ op ∈ ops, dget op.1 s.documents = none) →
    (ops.map Prod.fst).Nodup → Inv (ops.foldl opAdd s) := by
  intro ops
  induction ops with
  | nil => exact fun s h _ _ => h
  | cons op rest ih =>
    intro s hInv hfresh hnd
    rw [List.foldl_cons]
    simp only [List.map_cons, List.nodup_cons] at hnd
    apply ih
    · exact inv_addDocument s op.1 op.2.1 op.2.2.1 op.2.2.2 hInv
        (hfresh op (List.mem_cons_self ..))
    · intro op' hop'
      have hne : op.1 ≠ op'.1 := by
        intro he
        exact hnd.1 (List.mem_map.mpr ⟨op', hop', he.symm⟩)
      show dget op'.1 (addDocument s op.1 op.2.1 op.2.2.1 op.2.2.2).documents = none
      rw [addDocument_documents, dget_dset_ne _ _ hne]
      exact hfresh op' (List.mem_cons_of_mem _ hop')
    · exact hnd.2

theorem inv_buildOps (ops : List (String × String × String × String))
    (hnd : (ops.map Prod.fst).Nodup) : Inv (buildOps ops) :=
  inv_foldl ops emptyIndexer inv_emptyIndexer (fun _ _ => rfl) hnd

/-- Two `add_document` calls that reuse the same doc id. -/
def dupState : IndexerState :=
  addDocument (addDocument emptyIndexer "d" "t" "u" "hello") "d" "t" "u" "hello"

/-- Two `add_document` calls with distinct doc ids. -/
def opsAB : List (String × String × String × String) :=
  [("a", "T", "U", "hello"), ("b", "T", "U", "hello world")]

/-- **C1** (amended): after any sequence of `add_document` calls with
pairwise distinct doc_ids on a fresh `Indexer`, for every term `t` in the
index, `doc_freq[t]` equals the number of (distinct) doc_ids whose position
list under `t` is non-empty. (With a repeated doc_id the code counts the
same document twice, see the counterexample.) -/
theorem docFreq_consistency (ops : List (String × String × String × String))
    (hnd : (ops.map Prod.fst).Nodup) (t : String)
    (posts : List (String × List Nat))
    (h : dget t (buildOps ops).index = some posts) :
    dget t (buildOps ops).docFreq = some (posts.countP (fun e => !e.2.isEmpty)) ∧
    (posts.map Prod.fst).Nodup := by
  obtain ⟨-, hnd2, hdf, -⟩ := (inv_buildOps ops hnd).2 t posts h
  exact ⟨hdf, hnd2⟩

/-- Witness for **C1** at a concrete sequence of two `add_document` calls. -/
theorem docFreq_consistency_witness :
    ((opsAB.map Prod.fst).Nodup ∧
      dget "hello" (buildOps opsAB).index = some [("a", [0]), ("b", [0])]) ∧
    (dget "hello" (buildOps opsAB).docFreq =
        some (([("a", [0]), ("b", [0])] : List (String × List Nat)).countP
          (fun e => !e.2.isEmpty)) ∧
      (([("a", [0]), ("b", [0])] : List (String × List Nat)).map Prod.fst).Nodup) :=
  ⟨⟨by decide, by decide⟩,
    docFreq_consistency opsAB (by decide) "hello" [("a", [0]), ("b", [0])] (by decide)⟩

/-- **C1** counterexample: calling `add_document` twice with the same
doc_id makes `doc_freq["hello"]` equal to 2 while only one distinct doc_id
has a non-empty position list under "hello". -/
theorem docFreq_consistency_counterexample :
    dget "hello" dupState.docFreq ≠
      some (((dget "hello" dupState.index).getD []).countP
        (fun e => !e.2.isEmpty)) := by decide

/-- **C5** (amended): after any sequence of `add_document` calls with
pairwise distinct doc_ids on a fresh `Indexer`, no term of the index has an
empty postings map, no entry has an empty position list, and every position
list is strictly increasing with all positions below the stored token count
of its document. (With a repeated doc_id the appended positions restart at
0, see the counterexample.) -/
theorem postings_wellformed (ops : List (String × String × String × String))
    (hnd : (ops.map Prod.fst).Nodup) (t : String)
    (posts : List (String × List Nat))
    (h : dget t (buildOps ops).index = some posts) :
    posts ≠ [] ∧ postingsOk (buildOps ops).documents posts = true := by
  obtain ⟨hne, -, -, hent⟩ := (inv_buildOps ops hnd).2 t posts h
  refine ⟨hne, ?_⟩
  rw [postingsOk, List.all_eq_true]
  intro e he
  obtain ⟨hne2, hpw, m, hm, hb⟩ := hent e he
  simp only [hm, Bool.and_eq_true]
  refine ⟨⟨?_, strictIncr_of_pairwise hpw⟩, ?_⟩
  · simp [List.isEmpty_iff, hne2]
  · rw [List.all_eq_true]
    intro p hp
    exact decide_eq_true (hb p hp)

/-- Witness for **C5** at a concrete sequence of two `add_document` calls. -/
theorem postings_wellformed_witness :
    ((opsAB.map Prod.fst).Nodup ∧
      dget "world" (buildOps opsAB).index = some [("b", [1])]) ∧
    (([("b", [1])] : List (String × List Nat)) ≠ [] ∧
      postingsOk (buildOps opsAB).documents [("b", [1])] = true) :=
  ⟨⟨by decide, by decide⟩,
    postings_wellformed opsAB (by decide) "world" [("b", [1])] (by decide)⟩

/-- **C5** counterexample: calling `add_document` twice with the same
doc_id yields the position list `[0, 0]`, which is not strictly
increasing. -/
theorem postings_wellformed_counterexample :
    dget "hello" dupState.index = some [("d", [0, 0])] ∧
    strictIncr [0, 0] = false := by decide

/-! ### Decimal representation: `f"doc_{i}"` assigns distinct ids -/

/-- The decimal digits of a natural number (most significant first). -/
def decDigits (n : Nat) : List Char :=
  if n < 10 then [Nat.digitChar n]
  else decDigits (n / 10) ++ [Nat.digitChar (n % 10)]
termination_by n
decreasing_by
  exact Nat.div_lt_self (by omega) (by omega)

theorem decDigits_lt (n : Nat) (h : n < 10) : decDigits n = [Nat.digitChar n] := by
  rw [decDigits, if_pos h]

theorem decDigits_ge (n : Nat) (h : ¬n < 10) :
    decDigits n = decDigits (n / 10) ++ [Nat.digitChar (n % 10)] := by
  rw [decDigits, if_neg h]

theorem decDigits_ne_nil (n : Nat) : decDigits n ≠ [] := by
  by_cases h : n < 10
  · rw [decDigits_lt n h]
    simp
  · rw [decDigits_ge n h]
    simp

theorem toDigitsCore_eq_decDigits : ∀ (fuel n : Nat) (acc : List Char), n < fuel →
    Nat.toDigitsCore 10 fuel n acc = decDigits n ++ acc := by
  intro fuel
  induction fuel with
  | zero => exact fun n acc h => absurd h (Nat.not_lt_zero n)
  | succ fuel ih =>
    intro n acc h
    simp only [Nat.toDigitsCore]
    by_cases h0 : n / 10 = 0
    · rw [if_pos h0]
      have hn : n < 10 := by omega
      rw [decDigits_lt n hn, Nat.mod_eq_of_lt hn]
      rfl
    · rw [if_neg h0]
      have h10 : ¬n < 10 := by
        intro h2
        exact h0 (Nat.div_eq_of_lt h2)
      have hlt : n / 10 < fuel := by
        have := Nat.div_lt_self (by omega : 0 < n) (by omega : 1 < 10)
        omega
      rw [ih (n / 10) (Nat.digitChar (n % 10) :: acc) hlt]
      rw [decDigits_ge n h10]
      simp

theorem decDigits_two_le_length (n : Nat) (h : ¬n < 10) : 2 ≤ (decDigits n).length := by
  rw [decDigits_ge n h]
  have h1 : 0 < (decDigits (n / 10)).length :=
    List.length_pos.mpr (decDigits_ne_nil (n / 10))
  simp only [List.length_append, List.length_singleton]
  omega

theorem digitChar_inj_lt : ∀ a, a < 10 → ∀ b, b < 10 →
    Nat.digitChar a = Nat.digitChar b → a = b := by decide

theorem decDigits_inj : ∀ a b : Nat, decDigits a = decDigits b → a = b := by
  intro a
  induction a using Nat.strong_induction_on with
  | _ a ih =>
    intro b h
    by_cases ha : a < 10 <;> by_cases hb : b < 10
    · rw [decDigits_lt a ha, decDigits_lt b hb] at h
      exact digitChar_inj_lt a ha b hb (List.singleton_inj.mp h)
    · rw [decDigits_lt a ha] at h
      have := congrArg List.length h
      have h2 := decDigits_two_le_length b hb
      simp only [List.length_singleton] at this
      omega
    · rw [decDigits_lt b hb] at h
      have := congrArg List.length h
      have h2 := decDigits_two_le_length a ha
      simp only [List.length_singleton] at this
      omega
    · rw [decDigits_ge a ha, decDigits_ge b hb] at h
      have h2 := congrArg List.reverse h
      simp only [List.reverse_append, List.reverse_singleton, List.singleton_append] at h2
      obtain ⟨hd, hrest⟩ := List.cons.inj h2
      have hxs : decDigits (a / 10) = decDigits (b / 10) :=
        List.reverse_injective hrest
      have hdiv : a / 10 = b / 10 :=
        ih (a / 10) (Nat.div_lt_self (by omega) (by omega)) (b / 10) hxs
      have hmod : a % 10 = b % 10 :=
        digitChar_inj_lt (a % 10) (Nat.mod_lt a (by omega)) (b % 10)
          (Nat.mod_lt b (by omega)) hd
      omega

theorem natRepr_inj : ∀ a b : Nat, Nat.repr a = Nat.repr b → a = b := by
  intro a b h
  have hd : (Nat.toDigits 10 a) = (Nat.toDigits 10 b) := congrArg String.data h
  rw [Nat.toDigits, Nat.toDigits,
    toDigitsCore_eq_decDigits (a + 1) a [] (Nat.lt_succ_self a),
    toDigitsCore_eq_decDigits (b + 1) b [] (Nat.lt_succ_self b)] at hd
  simp only [List.append_nil] at hd
  exact decDigits_inj a b hd

theorem docName_inj : ∀ i j : Nat, ("doc_" ++ toString i : String) = "doc_" ++ toString j →
    i = j := by
  intro i j h
  have hd : ("doc_" : String).data ++ (toString i : String).data =
      ("doc_" : String).data ++ (toString j : String).data := by
    have := congrArg String.data h
    simpa [String.data_append] using this
  have h2 : (toString i : String).data = (toString j : String).data :=
    List.append_cancel_left hd
  have h3 : (toString i : String) = (toString j : String) := by
    cases hti : (toString i : String)
    cases htj : (toString j : String)
    rw [hti, htj] at h2
    exact congrArg String.mk (by simpa using h2)
  exact natRepr_inj i j h3

theorem buildAux_documents_keys : ∀ (pages : List Page) (s : IndexerState) (i : Nat),
    (∀ j, i ≤ j → dget ("doc_" ++ toString j : String) s.documents = none) →
    ((buildAux s i pages).documents).map Prod.fst =
      s.documents.map Prod.fst ++
        (List.range' i pages.length).map (fun j => ("doc_" ++ toString j : String)) := by
  intro pages
  induction pages with
  | nil =>
    intro s i h
    simp [buildAux]
  | cons p ps ih =>
    intro s i h
    rw [buildAux, ih]
    · rw [addDocument_documents, keys_dset]
      have hfi : ("doc_" ++ toString i : String) ∉ s.documents.map Prod.fst :=
        (dget_eq_none_iff _ _).mp (h i le_rfl)
      rw [if_neg hfi]
      have hr : List.range' i (ps.length + 1) = i :: List.range' (i + 1) ps.length :=
        List.range'_succ i ps.length 1
      rw [List.length_cons, hr]
      simp
    · intro j hj
      rw [addDocument_documents, dget_dset_ne]
      · exact h j (by omega)
      · intro he
        have := docName_inj i j he
        omega

/-- A concrete one-page input for `build_from_crawled_data`. -/
def pageP : Page := ⟨some "T", some "U", some "hello"⟩

/-- **C4** (amended): `build_from_crawled_data` assigns doc_ids
sequentially starting at 0 in input order ("doc_0", "doc_1", ...) and calls
`add_document` for each record; however it does NOT start from an empty
index: a second call re-uses the same doc_ids and appends to the structures
populated by the previous call (here `doc_freq["hello"]` becomes 2 after
building the same one-page input twice). -/
theorem buildFromCrawledData_sequential_ids :
    (∀ pages : List Page,
      ((buildFromCrawledData emptyIndexer pages).documents).map Prod.fst =
        (List.range pages.length).map (fun i => ("doc_" ++ toString i : String))) ∧
    dget "hello" (buildFromCrawledData (buildFromCrawledData emptyIndexer [pageP])
        [pageP]).docFreq = some 2 := by
  constructor
  · intro pages
    have h := buildAux_documents_keys pages emptyIndexer 0 (fun _ _ => rfl)
    rw [buildFromCrawledData, h]
    simp [List.range_eq_range', emptyIndexer]
  · decide

/-- **C4** counterexample: a second call to `build_from_crawled_data` with
the same input does not reproduce the state of a single call from a fresh
`Indexer` — the previous structures are appended to, not cleared. -/
theorem buildFromCrawledData_counterexample :
    buildFromCrawledData (buildFromCrawledData emptyIndexer [pageP]) [pageP] ≠
      buildFromCrawledData emptyIndexer [pageP] := by decide

/-! ### Lemmas about the ranker -/

theorem dget_cons_self {κ α : Type} [DecidableEq κ] (k : κ) (v : α) (m : List (κ × α)) :
    dget k ((k, v) :: m) = some v := by
  simp [dget]

theorem dget_cons_ne {κ α : Type} [DecidableEq κ] {k k' : κ} (v : α) (m : List (κ × α))
    (h : k' ≠ k) : dget k ((k', v) :: m) = dget k m := by
  simp [dget, h]

/-- `doc_meta.get("length", 1) or 1`: the TF denominator. -/
def pyLen (m : DocMeta) : Nat := if m.length = 0 then 1 else m.length

/-- Junk default metadata (irrelevant: only read behind a successful lookup). -/
def dftMeta : DocMeta := ⟨"", "", "", 1⟩

/-- The `tf * idf` amount the inner ranker loop adds to a document's score. -/
noncomputable def entryContrib (documents : List (String × DocMeta)) (idf : ℝ)
    (d : String) (posts : List (String × List Nat)) : ℝ :=
  ((((dget d posts).getD []).length : ℝ) /
    ((pyLen ((dget d documents).getD dftMeta)) : ℝ)) * idf

/-- The inner loop updates `scores[d]` iff `d` has postings and metadata. -/
def entryActive (documents : List (String × DocMeta)) (d : String)
    (posts : List (String × List Nat)) : Prop :=
  (dget d posts).isSome ∧ (dget d documents).isSome

instance (documents : List (String × DocMeta)) (d : String)
    (posts : List (String × List Nat)) : Decidable (entryActive documents d posts) := by
  unfold entryActive
  infer_instance

theorem entryActive_def (documents : List (String × DocMeta)) (d : String)
    (posts : List (String × List Nat)) :
    entryActive documents d posts ↔
      ((dget d posts).isSome = true ∧ (dget d documents).isSome = true) := Iff.rfl

/-- Query term `t` contributes to document `d`'s score iff `t` is in the
index, `d` is in its postings, and `d` has stored metadata. -/
def termActive (index : List (String × List (String × List Nat)))
    (documents : List (String × DocMeta)) (d t : String) : Prop :=
  (dget t index).isSome ∧ (dget d ((dget t index).getD [])).isSome ∧
    (dget d documents).isSome

instance (index : List (String × List (String × List Nat)))
    (documents : List (String × DocMeta)) (d t : String) :
    Decidable (termActive index documents d t) := by
  unfold termActive
  infer_instance

theorem termActive_def (index : List (String × List (String × List Nat)))
    (documents : List (String × DocMeta)) (d t : String) :
    termActive index documents d t ↔
      ((dget t index).isSome = true ∧ (dget d ((dget t index).getD [])).isSome = true ∧
        (dget d documents).isSome = true) := Iff.rfl

/-- The amount one occurrence of query term `t` adds to `d`'s score. -/
noncomputable def termContrib (index : List (String × List (String × List Nat)))
    (docFreq : List (String × Nat)) (documents : List (String × DocMeta))
    (totalDocs : Nat) (d t : String) : ℝ :=
  if termActive index documents d t then
    entryContrib documents (idfOf totalDocs ((dget t docFreq).getD 0)) d
      ((dget t index).getD [])
  else 0

theorem accumPostings_dget_not_mem (documents : List (String × DocMeta)) (idf : ℝ) :
    ∀ (posts : List (String × List Nat)) (scores : List (String × ℝ)) (d : String),
    d ∉ posts.map Prod.fst →
    dget d (accumPostings documents idf scores posts) = dget d scores := by
  intro posts
  induction posts with
  | nil => intro scores d _; rfl
  | cons e rest ih =>
    obtain ⟨doc, ps⟩ := e
    intro scores d hd
    simp only [List.map_cons, List.mem_cons] at hd
    push_neg at hd
    cases hm : dget doc documents with
    | none =>
      simp only [accumPostings, hm]
      exact ih scores d hd.2
    | some m =>
      simp only [accumPostings, hm]
      rw [ih _ d hd.2, dget_dset_ne _ _ (fun h => hd.1 h.symm)]

theorem accumPostings_dget (documents : List (String × DocMeta)) (idf : ℝ) :
    ∀ (posts : List (String × List Nat)) (scores : List (String × ℝ)) (d : String),
    (posts.map Prod.fst).Nodup →
    dget d (accumPostings documents idf scores posts) =
      if entryActive documents d posts then
        some ((dget d scores).getD 0 + entryContrib documents idf d posts)
      else dget d scores := by
  intro posts
  induction posts with
  | nil =>
    intro scores d _
    have hnact : ¬entryActive documents d [] := by
      intro h
      have h1 := ((entryActive_def ..).mp h).1
      simp [dget] at h1
    rw [if_neg hnact]
    rfl
  | cons e rest ih =>
    obtain ⟨doc, ps⟩ := e
    intro scores d hnd
    simp only [List.map_cons, List.nodup_cons] at hnd
    by_cases hdd : doc = d
    · subst hdd
      have hrest : doc ∉ rest.map Prod.fst := hnd.1
      cases hm : dget doc documents with
      | none =>
        have hnact : ¬entryActive documents doc ((doc, ps) :: rest) := by
          intro h
          have h2 := ((entryActive_def ..).mp h).2
          rw [hm] at h2
          cases h2
        simp only [accumPostings, hm]
        rw [accumPostings_dget_not_mem documents idf rest scores doc hrest,
          if_neg hnact]
      | some m =>
        have hact : entryActive documents doc ((doc, ps) :: rest) :=
          (entryActive_def ..).mpr ⟨by rw [dget_cons_self]; rfl, by rw [hm]; rfl⟩
        simp only [accumPostings, hm]
        rw [accumPostings_dget_not_mem documents idf rest _ doc hrest,
          dget_dset_self, if_pos hact]
        unfold entryContrib pyLen
        rw [dget_cons_self, hm]
        rfl
    · have hact : entryActive documents d ((doc, ps) :: rest) ↔
          entryActive documents d rest := by
        rw [entryActive_def, entryActive_def, dget_cons_ne _ _ hdd]
      have hcon : entryContrib documents idf d ((doc, ps) :: rest) =
          entryContrib documents idf d rest := by
        unfold entryContrib
        rw [dget_cons_ne _ _ hdd]
      cases hm : dget doc documents with
      | none =>
        simp only [accumPostings, hm]
        rw [ih scores d hnd.2]
        by_cases hac : entryActive documents d rest
        · rw [if_pos hac, if_pos (hact.mpr hac), hcon]
        · rw [if_neg hac, if_neg (fun h => hac (hact.mp h))]
      | some m =>
        simp only [accumPostings, hm]
        rw [ih _ d hnd.2]
        have hsc : dget d (dset doc ((dget doc scores).getD 0 +
            ((ps.length : ℝ) / ((if m.length = 0 then 1 else m.length : Nat) : ℝ)) * idf)
            scores) = dget d scores := dget_dset_ne _ _ hdd
        by_cases hac : entryActive documents d rest
        · rw [if_pos hac, if_pos (hact.mpr hac), hcon, hsc]
        · rw [if_neg hac, if_neg (fun h => hac (hact.mp h)), hsc]

theorem accumTerms_getD (index : List (String × List (String × List Nat)))
    (docFreq : List (String × Nat)) (documents : List (String × DocMeta))
    (totalDocs : Nat)
    (hnd : ∀ t posts, dget t index = some posts → (posts.map Prod.fst).Nodup) :
    ∀ (q : List String) (scores : List (String × ℝ)) (d : String),
    (dget d (accumTerms index docFreq documents totalDocs scores q)).getD 0 =
      (dget d scores).getD 0 +
        (q.map (termContrib index docFreq documents totalDocs d)).sum := by
  intro q
  induction q with
  | nil =>
    intro scores d
    simp [accumTerms]
  | cons t rest ih =>
    intro scores d
    rw [List.map_cons, List.sum_cons]
    cases hti : dget t index with
    | none =>
      simp only [accumTerms, hti]
      rw [ih scores d]
      have h0 : termContrib index docFreq documents totalDocs d t = 0 := by
        have hnact : ¬termActive index documents d t := by
          intro h
          have h1 := ((termActive_def ..).mp h).1
          rw [hti] at h1
          cases h1
        unfold termContrib
        rw [if_neg hnact]
      rw [h0]
      ring
    | some posts =>
      simp only [accumTerms, hti]
      rw [ih _ d]
      rw [accumPostings_dget documents _ posts scores d (hnd t posts hti)]
      have hta : termActive index documents d t ↔ entryActive documents d posts := by
        rw [termActive_def, entryActive_def, hti]
        simp
      by_cases hac : entryActive documents d posts
      · rw [if_pos hac]
        simp only [Option.getD_some]
        unfold termContrib
        rw [if_pos (hta.mpr hac), hti]
        simp only [Option.getD_some]
        ring
      · rw [if_neg hac]
        have h0 : termContrib index docFreq documents totalDocs d t = 0 := by
          unfold termContrib
          rw [if_neg (fun h => hac (hta.mp h))]
        rw [h0]
        ring

theorem accumTerms_isSome (index : List (String × List (String × List Nat)))
    (docFreq : List (String × Nat)) (documents : List (String × DocMeta))
    (totalDocs : Nat)
    (hnd : ∀ t posts, dget t index = some posts → (posts.map Prod.fst).Nodup) :
    ∀ (q : List String) (scores : List (String × ℝ)) (d : String),
    (dget d (accumTerms index docFreq documents totalDocs scores q)).isSome = true ↔
      ((dget d scores).isSome = true ∨ ∃ t ∈ q, termActive index documents d t) := by
  intro q
  induction q with
  | nil =>
    intro scores d
    simp [accumTerms]
  | cons t rest ih =>
    intro scores d
    cases hti : dget t index with
    | none =>
      simp only [accumTerms, hti]
      rw [ih scores d]
      constructor
      · rintro (h | h)
        · exact Or.inl h
        · exact Or.inr (by
            obtain ⟨t', ht', hact⟩ := h
            exact ⟨t', List.mem_cons_of_mem _ ht', hact⟩)
      · rintro (h | ⟨t', ht', hact⟩)
        · exact Or.inl h
        · rcases List.mem_cons.mp ht' with rfl | ht'
          · exfalso
            have h1 := ((termActive_def ..).mp hact).1
            rw [hti] at h1
            cases h1
          · exact Or.inr ⟨t', ht', hact⟩
    | some posts =>
      simp only [accumTerms, hti]
      rw [ih _ d]
      rw [accumPostings_dget documents _ posts scores d (hnd t posts hti)]
      have hta : termActive index documents d t ↔ entryActive documents d posts := by
        rw [termActive_def, entryActive_def, hti]
        simp
      by_cases hac : entryActive documents d posts
      · rw [if_pos hac]
        constructor
        · intro
          exact Or.inr ⟨t, List.mem_cons_self .., hta.mpr hac⟩
        · intro
          exact Or.inl rfl
      · rw [if_neg hac]
        constructor
        · rintro (h | ⟨t', ht', hact⟩)
          · exact Or.inl h
          · exact Or.inr ⟨t', List.mem_cons_of_mem _ ht', hact⟩
        · rintro (h | ⟨t', ht', hact⟩)
          · exact Or.inl h
          · rcases List.mem_cons.mp ht' with rfl | ht'
            · exact absurd (hta.mp hact) hac
            · exact Or.inr ⟨t', ht', hact⟩

theorem accumPostings_keys_nodup (documents : List (String × DocMeta)) (idf : ℝ) :
    ∀ (posts : List (String × List Nat)) (scores : List (String × ℝ)),
    (scores.map Prod.fst).Nodup →
    ((accumPostings documents idf scores posts).map Prod.fst).Nodup := by
  intro posts
  induction posts with
  | nil => exact fun scores h => h
  | cons e rest ih =>
    obtain ⟨doc, ps⟩ := e
    intro scores h
    cases hm : dget doc documents with
    | none =>
      simp only [accumPostings, hm]
      exact ih scores h
    | some m =>
      simp only [accumPostings, hm]
      exact ih _ (nodup_keys_dset _ _ _ h)

theorem accumTerms_keys_nodup (index : List (String × List (String × List Nat)))
    (docFreq : List (String × Nat)) (documents : List (String × DocMeta))
    (totalDocs : Nat) :
    ∀ (q : List String) (scores : List (String × ℝ)),
    (scores.map Prod.fst).Nodup →
    ((accumTerms index docFreq documents totalDocs scores q).map Prod.fst).Nodup := by
  intro q
  induction q with
  | nil => exact fun scores h => h
  | cons t rest ih =>
    intro scores h
    cases hti : dget t index with
    | none =>
      simp only [accumTerms, hti]
      exact ih scores h
    | some posts =>
      simp only [accumTerms, hti]
      exact ih _ (accumPostings_keys_nodup documents _ posts scores h)

theorem tfidfAccum_keys_nodup (q : List String)
    (index : List (String × List (String × List Nat)))
    (docFreq : List (String × Nat)) (documents : List (String × DocMeta)) :
    ((tfidfAccum q index docFreq documents).map Prod.fst).Nodup :=
  accumTerms_keys_nodup index docFreq documents documents.length q [] (by simp)

theorem pySlice_sublist {α : Type} (l : List α) (k : Int) : (pySlice l k).Sublist l := by
  unfold pySlice
  by_cases h : 0 ≤ k
  · rw [if_pos h]
    exact List.take_sublist _ _
  · rw [if_neg h]
    exact List.take_sublist _ _

instance : IsTotal (String × ℝ) scoreGE := ⟨fun a b => le_total b.2 a.2⟩

instance : IsTrans (String × ℝ) scoreGE := ⟨fun _ _ _ hab hbc => le_trans hbc hab⟩

/-- The per-term presence test of the specification: `t` is a key of the
index and occurs in document `d`. -/
def specPresent (index : List (String × List (String × List Nat))) (d t : String) : Bool :=
  (dget t index).isSome && (dget d ((dget t index).getD [])).isSome

/-- The score formula as the specification words it: the sum, over the
query terms `t` that are keys of the index and occur in document `d`, of
`(|index[t][d]| / max(stored length, 1)) * (ln((total_docs + 1) / (doc_freq[t] + 1)) + 1)`. -/
noncomputable def specScore (q : List String)
    (index : List (String × List (String × List Nat)))
    (docFreq : List (String × Nat)) (documents : List (String × DocMeta))
    (d : String) : ℝ :=
  ((q.filter (specPresent index d)).map (fun t =>
    ((((dget d ((dget t index).getD [])).getD []).length : ℝ) /
        ((pyLen ((dget d documents).getD dftMeta)) : ℝ)) *
      (Real.log (((documents.length : ℝ) + 1) / (((dget t docFreq).getD 0 : ℝ) + 1)) + 1))).sum

theorem sum_map_filter_ite (q : List String) (p : String → Bool) (f : String → ℝ) :
    ((q.filter p).map f).sum = (q.map (fun t => if p t then f t else 0)).sum := by
  induction q with
  | nil => rfl
  | cons t rest ih =>
    by_cases h : p t = true
    · rw [List.filter_cons_of_pos h, List.map_cons, List.sum_cons, ih,
        List.map_cons, List.sum_cons, if_pos h]
    · rw [List.filter_cons_of_neg h, List.map_cons, List.sum_cons, if_neg h, ih]
      ring

theorem termContrib_eq_ite (index : List (String × List (String × List Nat)))
    (docFreq : List (String × Nat)) (documents : List (String × DocMeta))
    (d : String) (hdoc : (dget d documents).isSome = true) (t : String) :
    termContrib index docFreq documents documents.length d t =
      if specPresent index d t then
        ((((dget d ((dget t index).getD [])).getD []).length : ℝ) /
            ((pyLen ((dget d documents).getD dftMeta)) : ℝ)) *
          (Real.log (((documents.length : ℝ) + 1) /
            (((dget t docFreq).getD 0 : ℝ) + 1)) + 1)
      else 0 := by
  unfold termContrib specPresent
  by_cases hp : ((dget t index).isSome && (dget d ((dget t index).getD [])).isSome) = true
  · rw [if_pos hp]
    rw [Bool.and_eq_true] at hp
    rw [if_pos ((termActive_def ..).mpr ⟨hp.1, hp.2, hdoc⟩)]
    unfold entryContrib idfOf
    rfl
  · rw [if_neg hp]
    rw [if_neg]
    intro h
    obtain ⟨h1, h2, -⟩ := (termActive_def ..).mp h
    exact hp ((Bool.and_eq_true ..).mpr ⟨h1, h2⟩)

/-- **C2**: every `(doc_id, score)` pair returned by `compute_tfidf_scores`
carries exactly the specification's TF-IDF sum for that document, the
returned list is sorted by score in descending order, and a document
containing none of the query terms never appears in the output. The
association lists standing in for Python dicts are assumed to have
distinct keys, as every Python dict does. -/
theorem compute_tfidf_scores_correct (q : List String)
    (index : List (String × List (String × List Nat)))
    (docFreq : List (String × Nat)) (documents : List (String × DocMeta))
    (topK : Int) (d : String) (s : ℝ)
    (hnd : ∀ t posts, dget t index = some posts → (posts.map Prod.fst).Nodup)
    (hmem : (d, s) ∈ computeTfidfScores q index docFreq documents topK) :
    s = specScore q index docFreq documents d ∧
    (computeTfidfScores q index docFreq documents topK).Sorted scoreGE ∧
    q.any (specPresent index d) = true := by
  have hmem2 : (d, s) ∈ tfidfAccum q index docFreq documents := by
    have h1 := (pySlice_sublist _ topK).mem hmem
    exact (List.perm_insertionSort scoreGE _).mem_iff.mp h1
  have hdget : dget d (tfidfAccum q index docFreq documents) = some s :=
    dget_of_mem_nodup (tfidfAccum_keys_nodup q index docFreq documents) hmem2
  have hisSome : (dget d (tfidfAccum q index docFreq documents)).isSome = true := by
    rw [hdget]
    rfl
  have hex : ∃ t ∈ q, termActive index documents d t := by
    rcases (accumTerms_isSome index docFreq documents documents.length hnd q [] d).mp
        hisSome with h | h
    · simp [dget] at h
    · exact h
  have hdoc : (dget d documents).isSome = true := by
    obtain ⟨t, -, hact⟩ := hex
    exact ((termActive_def ..).mp hact).2.2
  refine ⟨?_, ?_, ?_⟩
  · have hgetD := accumTerms_getD index docFreq documents documents.length hnd q [] d
    rw [show accumTerms index docFreq documents documents.length [] q =
        tfidfAccum q index docFreq documents from rfl, hdget] at hgetD
    simp only [Option.getD_some, dget, Option.getD_none] at hgetD
    rw [hgetD, specScore, sum_map_filter_ite]
    have : ∀ t ∈ q, termContrib index docFreq documents documents.length d t =
        (fun t => if specPresent index d t then
          ((((dget d ((dget t index).getD [])).getD []).length : ℝ) /
              ((pyLen ((dget d documents).getD dftMeta)) : ℝ)) *
            (Real.log (((documents.length : ℝ) + 1) /
              (((dget t docFreq).getD 0 : ℝ) + 1)) + 1)
          else 0) t :=
      fun t _ => termContrib_eq_ite index docFreq documents d hdoc t
    rw [List.map_congr_left this]
    ring
  · unfold computeTfidfScores
    exact (List.sorted_insertionSort scoreGE _).sublist (pySlice_sublist _ topK)
  · rw [List.any_eq_true]
    obtain ⟨t, ht, hact⟩ := hex
    obtain ⟨h1, h2, -⟩ := (termActive_def ..).mp hact
    exact ⟨t, ht, by unfold specPresent; rw [Bool.and_eq_true]; exact ⟨h1, h2⟩⟩

/-- Concrete one-term index for the C2 witness. -/
def c2index : List (String × List (String × List Nat)) := [("ca", [("d0", [0])])]

/-- Concrete doc-frequency map for the C2 witness. -/
def c2docFreq : List (String × Nat) := [("ca", 1)]

/-- Concrete document store for the C2 witness. -/
def c2documents : List (String × DocMeta) := [("d0", ⟨"T", "U", "S", 1⟩)]

/-- Witness for **C2** at a concrete one-document index. -/
theorem compute_tfidf_scores_correct_witness :
    (("d0", (1 : ℝ)) ∈ computeTfidfScores ["ca"] c2index c2docFreq c2documents 10) ∧
    ((1 : ℝ) = specScore ["ca"] c2index c2docFreq c2documents "d0" ∧
      (computeTfidfScores ["ca"] c2index c2docFreq c2documents 10).Sorted scoreGE ∧
      (["ca"].any (specPresent c2index "d0")) = true) := by
  have hnd : ∀ t posts, dget t c2index = some posts → (posts.map Prod.fst).Nodup := by
    intro t posts h
    unfold c2index dget at h
    by_cases ht : ("ca" : String) = t
    · rw [if_pos ht] at h
      cases h
      simp
    · rw [if_neg ht] at h
      cases h
  have hmem : ("d0", (1 : ℝ)) ∈ computeTfidfScores ["ca"] c2index c2docFreq c2documents 10 := by
    unfold computeTfidfScores tfidfAccum
    simp only [c2index, c2docFreq, c2documents, accumTerms, accumPostings, dget, dset,
      idfOf, List.insertionSort, List.orderedInsert, pySlice]
    norm_num [Real.log_one]
    simp
  exact ⟨hmem, compute_tfidf_scores_correct ["ca"] c2index c2docFreq c2documents 10 "d0" 1
    hnd hmem⟩

theorem singleton_index_nodup (k : String) (v : List (String × List Nat))
    (hv : (v.map Prod.fst).Nodup) :
    ∀ t posts, dget t [(k, v)] = some posts → (posts.map Prod.fst).Nodup := by
  intro t posts h
  unfold dget at h
  by_cases ht : k = t
  · rw [if_pos ht] at h
    cases h
    exact hv
  · rw [if_neg ht] at h
    cases h

/-- **C6** (amended): for a single-term query, a document with strictly
more occurrences of the term (same stored length, same doc_freq and
document store) never scores lower, provided `doc_freq[t] ≤ |documents|` —
the condition guaranteed by the documented doc_freq/index consistency
invariant, which keeps the smoothed idf non-negative. Without it the claim
is false: states with `doc_freq[t] > |documents|` are reachable (repeated
doc_id adds, or `load()`), make the idf negative, and then strictly more
occurrences strictly lower the score — see the counterexample. -/
theorem tfidf_monotone_in_tf (t d : String)
    (idx₁ idx₂ : List (String × List (String × List Nat)))
    (df : List (String × Nat)) (docs : List (String × DocMeta))
    (posts₁ posts₂ : List (String × List Nat)) (p₁ p₂ : List Nat)
    (hnd₁ : ∀ t' posts, dget t' idx₁ = some posts → (posts.map Prod.fst).Nodup)
    (hnd₂ : ∀ t' posts, dget t' idx₂ = some posts → (posts.map Prod.fst).Nodup)
    (h₁ : dget t idx₁ = some posts₁) (hp₁ : dget d posts₁ = some p₁)
    (h₂ : dget t idx₂ = some posts₂) (hp₂ : dget d posts₂ = some p₂)
    (hlen : p₁.length < p₂.length)
    (hdoc : (dget d docs).isSome = true)
    (hdf : (dget t df).getD 0 ≤ docs.length) :
    (dget d (tfidfAccum [t] idx₁ df docs)).getD 0 ≤
      (dget d (tfidfAccum [t] idx₂ df docs)).getD 0 := by
  have hg₁ := accumTerms_getD idx₁ df docs docs.length hnd₁ [t] [] d
  have hg₂ := accumTerms_getD idx₂ df docs docs.length hnd₂ [t] [] d
  rw [show accumTerms idx₁ df docs docs.length [] [t] =
    tfidfAccum [t] idx₁ df docs from rfl] at hg₁
  rw [show accumTerms idx₂ df docs docs.length [] [t] =
    tfidfAccum [t] idx₂ df docs from rfl] at hg₂
  rw [hg₁, hg₂]
  simp only [dget, Option.getD_none, List.map_cons, List.map_nil, List.sum_cons,
    List.sum_nil, add_zero, zero_add]
  have hact₁ : termActive idx₁ docs d t :=
    (termActive_def ..).mpr ⟨by rw [h₁]; rfl, by rw [h₁]; simp only [Option.getD_some]; rw [hp₁]; rfl, hdoc⟩
  have hact₂ : termActive idx₂ docs d t :=
    (termActive_def ..).mpr ⟨by rw [h₂]; rfl, by rw [h₂]; simp only [Option.getD_some]; rw [hp₂]; rfl, hdoc⟩
  unfold termContrib
  rw [if_pos hact₁, if_pos hact₂]
  unfold entryContrib
  rw [h₁, h₂]
  simp only [Option.getD_some, hp₁, hp₂]
  have hidf : 0 ≤ idfOf docs.length ((dget t df).getD 0) := by
    unfold idfOf
    have hlog : (0 : ℝ) ≤ Real.log (((docs.length : ℝ) + 1) /
        (((dget t df).getD 0 : ℝ) + 1)) := by
      apply Real.log_nonneg
      rw [le_div_iff₀ (by positivity)]
      have : ((dget t df).getD 0 : ℝ) ≤ (docs.length : ℝ) := by exact_mod_cast hdf
      linarith
    linarith
  have hL : (0 : ℝ) < ((pyLen ((dget d docs).getD dftMeta)) : ℝ) := by
    have h1 : 1 ≤ pyLen ((dget d docs).getD dftMeta) := by
      unfold pyLen
      split <;> omega
    exact_mod_cast Nat.lt_of_lt_of_le Nat.zero_lt_one h1
  refine mul_le_mul_of_nonneg_right ?_ hidf
  exact (div_le_div_iff_of_pos_right hL).mpr (by exact_mod_cast hlen.le)

/-- One-occurrence index for the C6 witness. -/
def c6idx1 : List (String × List (String × List Nat)) := [("ca", [("d0", [0])])]

/-- Two-occurrence index for the C6 witness. -/
def c6idx2 : List (String × List (String × List Nat)) := [("ca", [("d0", [0, 1])])]

/-- Doc-frequency map for the C6 witness. -/
def c6df : List (String × Nat) := [("ca", 1)]

/-- Document store for the C6 witness. -/
def c6docs : List (String × DocMeta) := [("d0", ⟨"T", "U", "S", 2⟩)]

/-- Witness for **C6** at a concrete pair of one-document indexes. -/
theorem tfidf_monotone_in_tf_witness :
    (dget "ca" c6idx1 = some [("d0", [0])] ∧
      dget "d0" [("d0", ([0] : List Nat))] = some [0] ∧
      dget "ca" c6idx2 = some [("d0", [0, 1])] ∧
      dget "d0" [("d0", ([0, 1] : List Nat))] = some [0, 1] ∧
      ([0] : List Nat).length < ([0, 1] : List Nat).length ∧
      (dget "d0" c6docs).isSome = true ∧
      (dget "ca" c6df).getD 0 ≤ c6docs.length) ∧
    (dget "d0" (tfidfAccum ["ca"] c6idx1 c6df c6docs)).getD 0 ≤
      (dget "d0" (tfidfAccum ["ca"] c6idx2 c6df c6docs)).getD 0 :=
  ⟨⟨by decide, by decide, by decide, by decide, by decide, by decide, by decide⟩,
    tfidf_monotone_in_tf "ca" "d0" c6idx1 c6idx2 c6df c6docs
      [("d0", [0])] [("d0", [0, 1])] [0] [0, 1]
      (singleton_index_nodup _ _ (by decide)) (singleton_index_nodup _ _ (by decide))
      (by decide) (by decide) (by decide) (by decide) (by decide) (by decide) (by decide)⟩

theorem nodup_postings_of_all : ∀ (idx : List (String × List (String × List Nat))),
    (∀ e ∈ idx, (e.2.map Prod.fst).Nodup) →
    ∀ t posts, dget t idx = some posts → (posts.map Prod.fst).Nodup := by
  intro idx
  induction idx with
  | nil =>
    intro _ t posts h
    cases h
  | cons e rest ih =>
    obtain ⟨k, v⟩ := e
    intro hall t posts h
    unfold dget at h
    by_cases hk : k = t
    · rw [if_pos hk] at h
      cases h
      exact hall (k, v) (List.mem_cons_self ..)
    · rw [if_neg hk] at h
      exact ih (fun e he => hall e (List.mem_cons_of_mem _ he)) t posts h

/-- Five same-doc_id `add_document` calls, the fourth with an extra "tt". -/
def c6opsA : List (String × String × String × String) :=
  [("d", "t", "u", "tt xx"), ("d", "t", "u", "tt xx"), ("d", "t", "u", "tt xx"),
   ("d", "t", "u", "tt xx tt"), ("d", "t", "u", "tt xx")]

/-- Five same-doc_id `add_document` calls, all with the same text. -/
def c6opsB : List (String × String × String × String) :=
  [("d", "t", "u", "tt xx"), ("d", "t", "u", "tt xx"), ("d", "t", "u", "tt xx"),
   ("d", "t", "u", "tt xx"), ("d", "t", "u", "tt xx")]

/-- Reachable state where doc "d" has 6 occurrences of "tt". -/
def c6sA : IndexerState := buildOps c6opsA

/-- Reachable state where doc "d" has 5 occurrences of "tt". -/
def c6sB : IndexerState := buildOps c6opsB

/-- **C6** counterexample: two reachable index states, identical except
that document "d" contains strictly more occurrences of the query term
"tt" in the first (6 versus 5, same stored length 2, identical doc_freq
and document store). Since `doc_freq["tt"] = 5 > 1 = total_docs`, the
smoothed idf `ln(2/6) + 1` is negative, and the state with strictly more
occurrences gets a strictly *lower* score — refuting the claim as stated. -/
theorem tfidf_monotone_in_tf_counterexample :
    dget "tt" c6sB.index = some [("d", [0, 0, 0, 0, 0])] ∧
    dget "tt" c6sA.index = some [("d", [0, 0, 0, 0, 2, 0])] ∧
    dget "xx" c6sA.index = dget "xx" c6sB.index ∧
    c6sA.docFreq = c6sB.docFreq ∧
    c6sA.documents = c6sB.documents ∧
    (dget "d" (tfidfAccum ["tt"] c6sA.index c6sA.docFreq c6sA.documents)).getD 0 <
      (dget "d" (tfidfAccum ["tt"] c6sB.index c6sB.docFreq c6sB.documents)).getD 0 := by
  refine ⟨by decide, by decide, by decide, by decide, by decide, ?_⟩
  have hndA : ∀ t posts, dget t c6sA.index = some posts → (posts.map Prod.fst).Nodup :=
    nodup_postings_of_all _ (by decide)
  have hndB : ∀ t posts, dget t c6sB.index = some posts → (posts.map Prod.fst).Nodup :=
    nodup_postings_of_all _ (by decide)
  have hgA := accumTerms_getD c6sA.index c6sA.docFreq c6sA.documents
    c6sA.documents.length hndA ["tt"] [] "d"
  have hgB := accumTerms_getD c6sB.index c6sB.docFreq c6sB.documents
    c6sB.documents.length hndB ["tt"] [] "d"
  rw [show accumTerms c6sA.index c6sA.docFreq c6sA.documents c6sA.documents.length [] ["tt"] =
    tfidfAccum ["tt"] c6sA.index c6sA.docFreq c6sA.documents from rfl] at hgA
  rw [show accumTerms c6sB.index c6sB.docFreq c6sB.documents c6sB.documents.length [] ["tt"] =
    tfidfAccum ["tt"] c6sB.index c6sB.docFreq c6sB.documents from rfl] at hgB
  rw [hgA, hgB]
  simp only [List.map_cons, List.map_nil, List.sum_cons, List.sum_nil, add_zero]
  unfold termContrib
  rw [if_pos (by decide : termActive c6sA.index c6sA.documents "d" "tt"),
    if_pos (by decide : termActive c6sB.index c6sB.documents "d" "tt")]
  unfold entryContrib
  rw [show (dget "tt" c6sA.index).getD [] = [("d", [0, 0, 0, 0, 2, 0])] from by decide,
    show (dget "tt" c6sB.index).getD [] = [("d", [0, 0, 0, 0, 0])] from by decide]
  rw [show (dget "d" [("d", ([0, 0, 0, 0, 2, 0] : List Nat))]).getD [] =
      [0, 0, 0, 0, 2, 0] from by decide,
    show (dget "d" [("d", ([0, 0, 0, 0, 0] : List Nat))]).getD [] =
      [0, 0, 0, 0, 0] from by decide]
  rw [show pyLen ((dget "d" c6sA.documents).getD dftMeta) = 2 from by decide,
    show pyLen ((dget "d" c6sB.documents).getD dftMeta) = 2 from by decide]
  rw [show (dget "tt" c6sA.docFreq).getD 0 = 5 from by decide,
    show (dget "tt" c6sB.docFreq).getD 0 = 5 from by decide]
  rw [show c6sA.documents.length = 1 from by decide,
    show c6sB.documents.length = 1 from by decide]
  have hidf : idfOf 1 5 < 0 := by
    unfold idfOf
    rw [show (((1 : Nat) : ℝ) + 1) / (((5 : Nat) : ℝ) + 1) = (3 : ℝ)⁻¹ from by norm_num,
      Real.log_inv]
    have h3 : 1 < Real.log 3 :=
      (Real.lt_log_iff_exp_lt (by norm_num)).mpr
        (lt_trans Real.exp_one_lt_d9 (by norm_num))
    linarith
  simp only [dget, Option.getD_none, List.length_cons, List.length_nil]
  push_cast
  nlinarith [hidf]

/-! ### Lemmas about the search engine -/

/-- **C3**: for a fixed index state and query and any `k ≥ 0`, `search`
returns at most `k` results, and the results for `k` are a prefix of the
results for `k + 1`. -/
theorem search_topk_prefix (st : IndexerState) (q : String) (k : Int) (hk : 0 ≤ k) :
    (search st q k).length ≤ k.toNat ∧ search st q k <+: search st q (k + 1) := by
  unfold search
  by_cases h1 : (q.data.all isPySpace) = true
  · rw [if_pos h1, if_pos h1]
    simp
  · rw [if_neg h1, if_neg h1]
    by_cases h2 : tokenize q = []
    · simp [h2]
    · simp only [h2, if_false]
      have hpre : pySlice (List.insertionSort scoreGE
          (tfidfAccum (tokenize q) st.index st.docFreq st.documents)) k <+:
          pySlice (List.insertionSort scoreGE
          (tfidfAccum (tokenize q) st.index st.docFreq st.documents)) (k + 1) := by
        unfold pySlice
        rw [if_pos hk, if_pos (by omega : (0 : ℤ) ≤ k + 1)]
        have hmono : k.toNat ≤ (k + 1).toNat := by omega
        rw [show ((List.insertionSort scoreGE
            (tfidfAccum (tokenize q) st.index st.docFreq st.documents)).take k.toNat) =
          ((List.insertionSort scoreGE
            (tfidfAccum (tokenize q) st.index st.docFreq st.documents)).take
              ((k + 1).toNat)).take k.toNat from by
          rw [List.take_take, min_eq_left hmono]]
        exact List.take_prefix _ _
      constructor
      · rw [List.length_map]
        unfold computeTfidfScores pySlice
        rw [if_pos hk]
        rw [List.length_take]
        exact min_le_left _ _
      · exact hpre.map _

/-- Witness for **C3** at a concrete state, query and `k`. -/
theorem search_topk_prefix_witness :
    (0 : Int) ≤ 2 ∧
    ((search emptyIndexer "x" 2).length ≤ (2 : Int).toNat ∧
      search emptyIndexer "x" 2 <+: search emptyIndexer "x" (2 + 1)) :=
  ⟨by decide, search_topk_prefix emptyIndexer "x" 2 (by decide)⟩

/-- **C7**: `search` returns the empty result list, without error, whenever
the query is empty, consists only of whitespace, or normalizes to zero
terms (e.g. only stop words). -/
theorem search_empty_query (st : IndexerState) (q : String) (k : Int)
    (h : q.data.all isPySpace = true ∨ tokenize q = []) :
    search st q k = [] := by
  unfold search
  rcases h with h | h
  · rw [if_pos h]
  · by_cases h1 : q.data.all isPySpace = true
    · rw [if_pos h1]
    · rw [if_neg h1]
      simp [h]

/-- Witness for **C7** at a whitespace-only query and a stop-word query. -/
theorem search_empty_query_witness :
    (("   ".data.all isPySpace = true ∨ tokenize "   " = []) ∧
      search emptyIndexer "   " 5 = []) ∧
    ((("the of".data.all isPySpace = true) ∨ tokenize "the of" = []) ∧
      search emptyIndexer "the of" 5 = []) :=
  ⟨⟨Or.inl (by decide), search_empty_query emptyIndexer "   " 5 (Or.inl (by decide))⟩,
    ⟨Or.inr (by decide), search_empty_query emptyIndexer "the of" 5 (Or.inr (by decide))⟩⟩

/-- The number of documents with a TF-IDF score for query `q` (the length
of the ranked list before truncation). -/
noncomputable def rankedCount (st : IndexerState) (q : String) : Nat :=
  if q.data.all isPySpace then 0
  else if tokenize q = [] then 0
  else (tfidfAccum (tokenize q) st.index st.docFreq st.documents).length

/-- **C8** (amended): for negative `top_k`, `search` neither clamps to 0
nor signals a fault; Python's slice `ranked[:top_k]` drops the last
`|top_k|` ranked results, so `search` returns the first
`rankedCount - |top_k|` results — a non-empty, silently altered result set
whenever more than `|top_k|` documents score. -/
theorem search_negative_topk (st : IndexerState) (q : String) (k : Int) (hk : k < 0) :
    (search st q k).length = rankedCount st q - (-k).toNat := by
  unfold search rankedCount
  by_cases h1 : (q.data.all isPySpace) = true
  · rw [if_pos h1, if_pos h1]
    simp
  · rw [if_neg h1, if_neg h1]
    by_cases h2 : tokenize q = []
    · simp [h2]
    · simp only [h2, if_false]
      rw [List.length_map]
      unfold computeTfidfScores pySlice
      rw [if_neg (by omega : ¬(0 : ℤ) ≤ k)]
      rw [List.length_take, List.length_insertionSort]
      exact min_eq_left (Nat.sub_le _ _)

/-- Witness for **C8** at a concrete state, query and negative `k`. -/
theorem search_negative_topk_witness :
    (-1 : Int) < 0 ∧
    (search emptyIndexer "x" (-1)).length = rankedCount emptyIndexer "x" - (-(-1 : Int)).toNat :=
  ⟨by decide, search_negative_topk emptyIndexer "x" (-1) (by decide)⟩

/-- A two-document index, both documents containing the term "ca". -/
def twoDocState : IndexerState :=
  buildFromCrawledData emptyIndexer
    [⟨some "A", some "a", some "ca ca"⟩, ⟨some "B", some "b", some "ca xx"⟩]

/-- **C8** counterexample: with two scored documents and `top_k = -1`,
`search` returns one result — it neither clamps the negative `top_k` to 0
(which would return no results) nor raises an input-validation error; it
silently drops the last ranked result. -/
theorem search_negative_topk_counterexample :
    (search twoDocState "ca" (-1)).length = 1 ∧ search twoDocState "ca" (-1) ≠ [] := by
  have hlen : (search twoDocState "ca" (-1)).length = 1 := by
    rw [search_negative_topk twoDocState "ca" (-1) (by decide)]
    have hrc : rankedCount twoDocState "ca" = 2 := by
      unfold rankedCount
      rw [if_neg (by decide : ¬("ca".data.all isPySpace = true))]
      rw [show tokenize "ca" = ["ca"] from by decide]
      rw [if_neg (by decide : ¬(["ca"] : List String) = [])]
      rw [show twoDocState.index =
        [("ca", [("doc_0", [0, 1]), ("doc_1", [0])]), ("xx", [("doc_1", [1])])] from by decide]
      rw [show twoDocState.docFreq = [("ca", 2), ("xx", 1)] from by decide]
      rw [show twoDocState.documents =
        [("doc_0", ⟨"A", "a", "ca ca", 2⟩), ("doc_1", ⟨"B", "b", "ca xx", 2⟩)] from by decide]
      unfold tfidfAccum
      simp [accumTerms, accumPostings, dget, dset]
    rw [hrc]
    decide
  refine ⟨hlen, ?_⟩
  intro hnil
  rw [hnil] at hlen
  cases hlen

end MiniSearch
